import Mathlib

/-!
Verification development for the grid-builder repository.

The numeric carrier `K` models the real numbers produced by the program's
arithmetic exactly: every value the program computes lies in ℚ[√3] (the hex
basis transform and hex cell positions involve √3; everything else is
rational).  A value `⟨a, b⟩ : K` denotes the real number `a + b·√3`.
Floating-point rounding is idealised away, as the specification's contracts
(round-trips, parity counting, adjacency) are stated over the exact values;
where a division by zero would produce a NaN/inf in `f32` and thereby fail
every comparison, the embedding models that outcome explicitly (see
`segIntersectRay`).
-/

/-- Numbers of the form `a + b·√3` with `a b : ℚ`.  Exact carrier for all
coordinates computed by the program. -/
structure K where
  ra : ℚ
  sq : ℚ
  deriving DecidableEq, Repr

namespace K

def ofRat (q : ℚ) : K := ⟨q, 0⟩

def ofInt (n : ℤ) : K := ⟨(n : ℚ), 0⟩

/-- The value √3. -/
def rt3 : K := ⟨0, 1⟩

instance : Zero K := ⟨⟨0, 0⟩⟩

instance : One K := ⟨⟨1, 0⟩⟩

instance : Add K := ⟨fun z w => ⟨z.ra + w.ra, z.sq + w.sq⟩⟩

instance : Neg K := ⟨fun z => ⟨-z.ra, -z.sq⟩⟩

instance : Sub K := ⟨fun z w => ⟨z.ra - w.ra, z.sq - w.sq⟩⟩

instance : Mul K := ⟨fun z w => ⟨z.ra * w.ra + 3 * (z.sq * w.sq), z.ra * w.sq + z.sq * w.ra⟩⟩

/-- Multiplicative inverse in ℚ[√3] (junk value 0 at 0; the guard
`ra² - 3·sq² = 0` holds only at 0 since √3 is irrational). -/
def inv (z : K) : K :=
  let d := z.ra ^ 2 - 3 * z.sq ^ 2
  if d = 0 then ⟨0, 0⟩ else ⟨z.ra / d, -z.sq / d⟩

instance : Div K := ⟨fun z w => z * inv w⟩

/-- `z` denotes a strictly positive real.  Case analysis on the sign of the
√3 coefficient; comparisons of `a` with `-b·√3` are decided by comparing
squares. -/
def Pos (z : K) : Prop :=
  if 0 ≤ z.sq then 0 < z.ra ∨ (z.sq ≠ 0 ∧ z.ra ^ 2 < 3 * z.sq ^ 2)
  else 0 < z.ra ∧ 3 * z.sq ^ 2 < z.ra ^ 2

instance (z : K) : Decidable (Pos z) := by unfold Pos; infer_instance

/-- `z` denotes a nonnegative real. -/
def Nonneg (z : K) : Prop := ¬ Pos (-z)

instance (z : K) : Decidable (Nonneg z) := by unfold Nonneg; infer_instance

/-- Absolute value. -/
def abv (z : K) : K := if Nonneg z then z else -z

/-- Floor of the real `a + b·√3`, computed via integer square roots:
with `a = N/d'` and `b = M/d''` over the common denominator `d`,
`⌊(N + M·√3)/d⌋ = ⌊(N + ⌊M·√3⌋)/d⌋`, and `⌊M·√3⌋ = ⌊√(3M²)⌋` for `M ≥ 0`
(resp. `-⌊√(3M²)⌋ - 1` for `M < 0`, where `3M²` is never a perfect square). -/
def floorK (z : K) : ℤ :=
  let N : ℤ := z.ra.num * (z.sq.den : ℤ)
  let M : ℤ := z.sq.num * (z.ra.den : ℤ)
  let d : ℤ := (z.ra.den : ℤ) * (z.sq.den : ℤ)
  if 0 ≤ M then (N + Int.sqrt (3 * M ^ 2)) / d
  else (N - Int.sqrt (3 * M ^ 2) - 1) / d

/-- `f32::round`: round half away from zero (source: `rounding.rs`,
`round_to_int`). -/
def roundAway (z : K) : ℤ :=
  if Nonneg z then floorK (z + ofRat (1 / 2)) else -floorK (-z + ofRat (1 / 2))

/-- Source: `rounding.rs`, `round_with_diff`: the rounded value together with
the absolute rounding error. -/
def roundWithDiff (z : K) : ℤ × K :=
  let it := roundAway z
  (it, abv (z - ofInt it))

end K

/-- A 2-D point/vector with coordinates in `K` (models `bevy::math::Vec2`). -/
structure Pt where
  x : K
  y : K
  deriving DecidableEq, Repr

namespace Pt

instance : Add Pt := ⟨fun v w => ⟨v.x + w.x, v.y + w.y⟩⟩

instance : Sub Pt := ⟨fun v w => ⟨v.x - w.x, v.y - w.y⟩⟩

/-- `Vec2::perp`: counterclockwise perpendicular `(-y, x)`. -/
def perp (v : Pt) : Pt := ⟨-v.y, v.x⟩

/-- `Vec2::perp_dot`: the 2-D cross product `v.x·w.y - v.y·w.x`. -/
def perpDot (v w : Pt) : K := v.x * w.y - v.y * w.x

/-- Componentwise scaling by a scalar (models `Vec2 * f32`). -/
def mulS (v : Pt) (k : K) : Pt := ⟨v.x * k, v.y * k⟩

/-- Componentwise division by a scalar (models `Vec2 / f32`). -/
def divS (v : Pt) (k : K) : Pt := ⟨v.x / k, v.y / k⟩

end Pt

/-- A 3-D point (models `bevy::math::Vec3`; the board meshes store 3-D
vertices). -/
structure V3 where
  x : K
  y : K
  z : K
  deriving DecidableEq, Repr

/-- `Vec2::extend(0.0)`. -/
def Pt.extend0 (v : Pt) : V3 := ⟨v.x, v.y, 0⟩

/-- `Vec3::xy()`. -/
def V3.xy (v : V3) : Pt := ⟨v.x, v.y⟩

/-! ## Board model (source: `board.rs`) -/

/-- Source: `board.rs`, `Path` — a `BTreeMap<Keyframe, Vec2>`, modelled as the
association list of its entries in increasing keyframe order. -/
structure PathK where
  kfs : List (ℚ × Pt)
  deriving DecidableEq, Repr

/-- Source: `board.rs`, `Path::simple`: exactly the two keyframes 0 and 1 at
the two endpoint positions. -/
def PathK.simple (s e : Pt) : PathK := ⟨[(0, s), (1, e)]⟩

/-- Source: `board.rs`, `Polygon`. -/
structure Polygon where
  points : List Pt
  deriving DecidableEq, Repr

/-- Source: `board.rs`, `Cell` — one cell record of a `Board`.  The
`HashMap<usize, Path>` of neighbors is modelled as the association list of its
entries in insertion order (all keys inserted are distinct). -/
structure CellRec where
  neighbors : List (ℕ × PathK)
  shape : Polygon
  position : Pt
  deriving DecidableEq, Repr

/-- Source: `board.rs`, `BoardColor`. -/
inductive BoardColor where
  | playerColor : BoardColor
  | staticColor : ℚ → ℚ → ℚ → BoardColor
  deriving DecidableEq, Repr

/-- Source: `board.rs`, `Mesh`. -/
inductive MeshB where
  | indexedLineMesh (vertices : List V3) (lns : List (ℕ × ℕ)) : MeshB
  | indexedTriMesh (vertices : List V3) (tris : List (ℕ × ℕ × ℕ)) : MeshB
  deriving DecidableEq, Repr

/-- Source: `board.rs`, `BoardMesh`. -/
structure BoardMesh where
  color : BoardColor
  mesh : MeshB
  deriving DecidableEq, Repr

/-- Source: `board.rs`, `Board`. -/
structure Board where
  cells : List CellRec
  meshes : List BoardMesh
  deriving DecidableEq, Repr

/-! ## Polygon containment (source: `board.rs`, `Polygon::contains`,
`LineSegment::intersection`) -/

/-- `circular_tuple_windows`: the boundary segments `(p₀,p₁) … (pₙ₋₁,p₀)`. -/
def segsOf (p : Polygon) : List (Pt × Pt) := p.points.zip (p.points.rotateLeft 1)

/-- Source: `LineSegment::intersection`.  `t` is the segment parameter, `u`
the ray parameter, both obtained from the perp-dot (2-D cross product)
solution of the 2×2 linear system.  When the segment is parallel to the ray
the `f32` code divides by zero and yields ±inf/NaN, which always fails the
`0 ≤ t ≤ 1` containment test; the embedding renders that as `none`. -/
def segIntersectRay (s : Pt × Pt) (origin dir : Pt) : Option Pt :=
  let ab := s.2 - s.1
  if Pt.perpDot ab dir = 0 then none
  else
    let t := (Pt.perpDot (origin - s.1) dir) / (Pt.perpDot ab dir)
    let u := (Pt.perpDot (s.1 - origin) ab) / (Pt.perpDot dir ab)
    if K.Nonneg u ∧ K.Nonneg t ∧ K.Nonneg (K.ofRat 1 - t) then some (s.1 + ab.mulS t)
    else none

/-- The `+X` unit ray direction (`Vec2::X`). -/
def xDir : Pt := ⟨K.ofRat 1, K.ofRat 0⟩

/-- Source: `Polygon::contains`: parity of the number of boundary segments
with a valid `+X`-ray intersection. -/
def Polygon.containsPt (p : Polygon) (pos : Pt) : Bool :=
  decide (Odd ((segsOf p).countP (fun s => (segIntersectRay s pos xDir).isSome)))

/-! ## Square tiling (source: `basic_grid.rs`, module `square`) -/

namespace Square

structure Cell where
  x : ℤ
  y : ℤ
  deriving DecidableEq, Repr

structure Corner where
  x : ℤ
  y : ℤ
  deriving DecidableEq, Repr

/-- Derived `Ord` on `square::Corner`: lexicographic on `(x, y)`. -/
def Corner.ltB (u v : Corner) : Bool :=
  decide (u.x < v.x ∨ (u.x = v.x ∧ u.y < v.y))

def Cell.position (c : Cell) : Pt :=
  ⟨K.ofInt c.x * K.ofRat 2, K.ofInt c.y * K.ofRat 2⟩

def Cell.pick (p : Pt) : Cell :=
  ⟨K.roundAway (p.x / K.ofRat 2), K.roundAway (p.y / K.ofRat 2)⟩

def Cell.neighbors (c : Cell) : List Cell :=
  [Cell.mk 1 0, Cell.mk 0 1, Cell.mk (-1) 0, Cell.mk 0 (-1)].map
    (fun o => ⟨o.x + c.x, o.y + c.y⟩)

def Cell.shape (c : Cell) : Polygon :=
  ⟨[Pt.mk (K.ofRat (-1)) (K.ofRat (-1)), Pt.mk (K.ofRat 1) (K.ofRat (-1)),
    Pt.mk (K.ofRat 1) (K.ofRat 1), Pt.mk (K.ofRat (-1)) (K.ofRat 1)].map
    (fun v => v + c.position)⟩

def Cell.corners (c : Cell) : List Corner :=
  [⟨c.x, c.y⟩, ⟨c.x + 1, c.y⟩, ⟨c.x + 1, c.y + 1⟩, ⟨c.x, c.y + 1⟩]

def Cell.lns (c : Cell) : List (Corner × Corner) :=
  let cs := c.corners
  let d : Corner := ⟨0, 0⟩
  [(cs.getD 0 d, cs.getD 1 d), (cs.getD 1 d, cs.getD 2 d),
   (cs.getD 2 d, cs.getD 3 d), (cs.getD 3 d, cs.getD 0 d)]

def Corner.position (k : Corner) : Pt :=
  ⟨K.ofInt k.x * K.ofRat 2 - K.ofRat 1, K.ofInt k.y * K.ofRat 2 - K.ofRat 1⟩

end Square

/-! ## Hex tiling (source: `basic_grid.rs`, module `hex`) -/

namespace Hex

structure Cell where
  q : ℤ
  r : ℤ
  deriving DecidableEq, Repr

structure Corner where
  q : ℤ
  r : ℤ
  left : Bool
  deriving DecidableEq, Repr

/-- Derived `Ord` on `hex::Corner`: lexicographic on `(q, r, left)` with
`false < true`. -/
def Corner.ltB (u v : Corner) : Bool :=
  decide (u.q < v.q ∨ (u.q = v.q ∧ (u.r < v.r ∨
    (u.r = v.r ∧ u.left = false ∧ v.left = true))))

def Cell.corners (c : Cell) : List Corner :=
  [⟨c.q, c.r, false⟩, ⟨c.q + 1, c.r, true⟩, ⟨c.q - 1, c.r + 1, false⟩,
   ⟨c.q, c.r, true⟩, ⟨c.q - 1, c.r, false⟩, ⟨c.q + 1, c.r - 1, true⟩]

def Cell.lns (c : Cell) : List (Corner × Corner) :=
  let cs := c.corners
  let d : Corner := ⟨0, 0, false⟩
  [(cs.getD 0 d, cs.getD 1 d), (cs.getD 1 d, cs.getD 2 d),
   (cs.getD 2 d, cs.getD 3 d), (cs.getD 3 d, cs.getD 4 d),
   (cs.getD 4 d, cs.getD 5 d), (cs.getD 5 d, cs.getD 0 d)]

def Cell.neighbors (c : Cell) : List Cell :=
  [⟨c.q - 1, c.r⟩, ⟨c.q - 1, c.r + 1⟩, ⟨c.q, c.r - 1⟩,
   ⟨c.q, c.r + 1⟩, ⟨c.q + 1, c.r - 1⟩, ⟨c.q + 1, c.r⟩]

/-- The fractional cube coordinate `cq = 2x/3` of `hex::Cell::pick`. -/
def fracQ (p : Pt) : K := K.ofRat 2 * p.x / K.ofRat 3

/-- The fractional cube coordinate `cr = -x/3 + (√3/3)y` of
`hex::Cell::pick`. -/
def fracR (p : Pt) : K := K.ofRat (-1) / K.ofRat 3 * p.x + K.rt3 / K.ofRat 3 * p.y

/-- Source: `hex::Cell::pick` — fractional cube coordinates, independent
rounding, then reconstruction of the least-confident coordinate. -/
def Cell.pick (p : Pt) : Cell :=
  let qd := K.roundWithDiff (fracQ p)
  let rd := K.roundWithDiff (fracR p)
  let sd := K.roundWithDiff (-fracQ p - fracR p)
  if K.Pos (qd.2 - rd.2) ∧ K.Pos (qd.2 - sd.2) then ⟨-rd.1 - sd.1, rd.1⟩
  else if K.Pos (rd.2 - sd.2) then ⟨qd.1, -qd.1 - sd.1⟩
  else ⟨qd.1, rd.1⟩

def Cell.position (c : Cell) : Pt :=
  ⟨K.ofInt c.q * K.ofRat 3 / K.ofRat 2,
   K.rt3 / K.ofRat 2 * K.ofInt c.q + K.rt3 * K.ofInt c.r⟩

/-- Source: the hex `shape` uses the decimal literal `0.866`, i.e. the exact
rational `433/500`, not `√3/2`. -/
def Cell.shape (c : Cell) : Polygon :=
  ⟨[Pt.mk (K.ofRat 1) (K.ofRat 0), Pt.mk (K.ofRat (1/2)) (K.ofRat (433/500)),
    Pt.mk (K.ofRat (-(1/2))) (K.ofRat (433/500)), Pt.mk (K.ofRat (-1)) (K.ofRat 0),
    Pt.mk (K.ofRat (-(1/2))) (K.ofRat (-(433/500))),
    Pt.mk (K.ofRat (1/2)) (K.ofRat (-(433/500)))].map (fun v => v + c.position)⟩

def Corner.position (k : Corner) : Pt :=
  (Cell.position ⟨k.q, k.r⟩) +
    (if k.left then Pt.mk (K.ofRat (-1)) (K.ofRat 0) else Pt.mk (K.ofRat 1) (K.ofRat 0))

end Hex

/-! ## The `BaseCell`/`BaseCorner` trait abstraction (source: `basic_grid.rs`) -/

/-- Source: trait `BaseCorner` together with the derived `Ord` used by
`min_max`. -/
class BaseCornerOps (R : Type) where
  position : R → Pt
  ltB : R → R → Bool

/-- Source: trait `BaseCell` (the operations; the default methods
`adjacent_to` and `neighboring_edge` are defined below, generically). -/
class BaseCellOps (C : Type) (R : outParam Type) where
  pick : Pt → C
  position : C → Pt
  neighbors : C → List C
  shape : C → Polygon
  corners : C → List R
  lns : C → List (R × R)

instance : BaseCornerOps Square.Corner := ⟨Square.Corner.position, Square.Corner.ltB⟩

instance : BaseCornerOps Hex.Corner := ⟨Hex.Corner.position, Hex.Corner.ltB⟩

instance : BaseCellOps Square.Cell Square.Corner :=
  ⟨Square.Cell.pick, Square.Cell.position, Square.Cell.neighbors,
   Square.Cell.shape, Square.Cell.corners, Square.Cell.lns⟩

instance : BaseCellOps Hex.Cell Hex.Corner :=
  ⟨Hex.Cell.pick, Hex.Cell.position, Hex.Cell.neighbors,
   Hex.Cell.shape, Hex.Cell.corners, Hex.Cell.lns⟩

variable {C R : Type}

/-- Source: `BaseCell::adjacent_to` — `b` occurs among `a`'s neighbors. -/
def adjacentTo [DecidableEq C] [BaseCellOps C R] (a b : C) : Prop :=
  b ∈ BaseCellOps.neighbors (R := R) a

instance [DecidableEq C] [BaseCellOps C R] (a b : C) :
    Decidable (adjacentTo (R := R) a b) := by unfold adjacentTo; infer_instance

/-- An edge `[Corner; 2]` reversed. -/
def revEdge (e : R × R) : R × R := (e.2, e.1)

/-- Source: `BaseCell::neighboring_edge` — the first edge of `a` whose
reverse occurs among `b`'s edges.  The source `.expect`s the result (panics
when the cells are not adjacent); the embedding returns an `Option`. -/
def neighboringEdge [DecidableEq R] [BaseCellOps C R] (a b : C) : Option (R × R) :=
  ((BaseCellOps.lns (C := C) a).filter
    (fun e => decide (e ∈ (BaseCellOps.lns (C := C) b).map revEdge))).head?

/-- Source: `util.rs`, `MinMax::min_max` via the derived corner `Ord`. -/
def minMaxC [BaseCornerOps R] (e : R × R) : R × R :=
  if BaseCornerOps.ltB e.1 e.2 then (e.1, e.2) else (e.2, e.1)

/-! ## Edge-override registry (source: `bin/grid.rs`, `Edges`) -/

/-- The registry `Edges<C>` (a `HashMap<C, HashSet<C>>`) modelled
extensionally: `E a b = true` iff the map's entry for `a` contains `b`. -/
def EdgesF (C : Type) := C → C → Bool

/-- The empty registry (`Edges::default`). -/
def emptyEdges : EdgesF C := fun _ _ => false

/-- Source: `Edges::add_one_way_edge`: remove the reverse entry `(to, from)`,
then insert `(from, to)`. -/
def addOneWayEdge [DecidableEq C] (E : EdgesF C) (f t : C) : EdgesF C :=
  fun a b => if a = f ∧ b = t then true else if a = t ∧ b = f then false else E a b

/-- Source: `Edges::remove_cell`: drop the cell's own entry and remove it
from every other entry's set. -/
def removeCellE [DecidableEq C] (E : EdgesF C) (c : C) : EdgesF C :=
  fun a b => if a = c ∨ b = c then false else E a b

inductive EdgeDir where
  | aToB : EdgeDir
  | bToA : EdgeDir
  deriving DecidableEq, Repr

/-- Source: `Edges::edge_dir`. -/
def edgeDir (E : EdgesF C) (a b : C) : Option EdgeDir :=
  if E a b then some .aToB else if E b a then some .bToA else none

/-- The operations through which the editor mutates a registry. -/
inductive EdgeOp (C : Type) where
  | addOneWay (f t : C) : EdgeOp C
  | removeCell (c : C) : EdgeOp C

/-- A registry reached from `Edges::default()` by a sequence of operations. -/
def applyOps [DecidableEq C] (ops : List (EdgeOp C)) : EdgesF C :=
  ops.foldl (fun E op => match op with
    | .addOneWay f t => addOneWayEdge E f t
    | .removeCell c => removeCellE E c) emptyEdges

/-! ## Board synthesis (source: `bin/grid.rs`, `build_board`) -/

/-- `HashSet::insert` on the insertion-ordered list model of a hash set. -/
def insertD [DecidableEq α] (l : List α) (x : α) : List α :=
  if x ∈ l then l else l ++ [x]

/-- Set-collection of a list (`collect::<HashSet<_>>()` keeping first
occurrences in insertion order). -/
def dedupF [DecidableEq α] (l : List α) : List α := l.foldl insertD []

/-- Source: `bin/grid.rs`, `TriVert`: either a cell-corner vertex or the
synthetic arrow-tip vertex of a directed edge, identified by its ordered
corner pair. -/
inductive TriVert (R : Type) where
  | corner (c : R) : TriVert R
  | tip (a b : R) : TriVert R
  deriving DecidableEq, Repr

/-- A run's hash-set iteration orders.  Rust's `std::collections::HashSet`
iterates in an order determined by a per-instance random seed; the functions
below reorder the canonical insertion-ordered contents accordingly (a faithful
run corresponds to permutation-respecting functions). -/
structure HashOrd (R : Type) : Type where
  w : List (R × R) → List (R × R)
  c : List R → List R
  d : List (R × R) → List (R × R)
  t : List (TriVert R) → List (TriVert R)

/-- The identity iteration order. -/
def idOrd : HashOrd R := ⟨id, id, id, id⟩

/-- First phase of `build_board`: classify each (cell, neighbor) edge as a
boundary wall (canonicalized via `min_max`) or a directed edge (oriented from
the registry's `from` cell to its `to` cell).  Returns
(`boring_edges`, `directed_edges`).  The `none` branch of `neighboringEdge`
mirrors the source's `.expect`, which is unreachable here because every
scanned pair is geometrically adjacent (theorem `c4_neighboring_edge_total`). -/
def classifyEdges [DecidableEq C] [DecidableEq R] [BaseCellOps C R] [BaseCornerOps R]
    (cells : List C) (E : EdgesF C) : List (R × R) × List (R × R) :=
  cells.foldl (fun acc cell =>
    (BaseCellOps.neighbors (R := R) cell).foldl (fun acc2 neighbor =>
      match neighboringEdge cell neighbor with
      | none => acc2
      | some edge =>
        if neighbor ∈ cells then
          match edgeDir E cell neighbor with
          | some .aToB => (acc2.1, insertD acc2.2 (revEdge edge))
          | some .bToA => (acc2.1, insertD acc2.2 edge)
          | none => (insertD acc2.1 (minMaxC edge), acc2.2)
        else (insertD acc2.1 (minMaxC edge), acc2.2)) acc) ([], [])

/-- The deduplicated corner list of the boundary-wall mesh. -/
def wallCorners [DecidableEq R] (σ : HashOrd R) (boring : List (R × R)) : List R :=
  σ.c (dedupF ((σ.w boring).flatMap (fun e => [e.1, e.2])))

/-- Each boundary wall as an index pair into the corner list. -/
def wallLines [DecidableEq R] (σ : HashOrd R) (boring : List (R × R))
    (cs : List R) : List (ℕ × ℕ) :=
  (σ.w boring).map (fun e => (cs.indexOf e.1, cs.indexOf e.2))

/-- The deduplicated `TriVert` list of the directional-arrow mesh. -/
def triVertList [DecidableEq R] (σ : HashOrd R) (directed : List (R × R)) :
    List (TriVert R) :=
  σ.t (dedupF ((σ.d directed).flatMap
    (fun e => [TriVert.corner e.1, TriVert.corner e.2, TriVert.tip e.1 e.2])))

/-- Each directed edge as an index triple (corner, corner, tip). -/
def triIdx [DecidableEq R] (σ : HashOrd R) (directed : List (R × R))
    (tvs : List (TriVert R)) : List (ℕ × ℕ × ℕ) :=
  (σ.d directed).map (fun e =>
    (tvs.indexOf (TriVert.corner e.1), tvs.indexOf (TriVert.corner e.2),
     tvs.indexOf (TriVert.tip e.1 e.2)))

/-- Position of a `TriVert`: corner position, or edge midpoint displaced along
the perpendicular of the corner-to-corner direction by `arrow_offset`. -/
def triVertPos [BaseCornerOps R] (arrowOffset : ℚ) : TriVert R → V3
  | .corner c => (BaseCornerOps.position c).extend0
  | .tip a b =>
    let pa := BaseCornerOps.position a
    let pb := BaseCornerOps.position b
    let midpoint := (pa + pb).divS (K.ofRat 2)
    (midpoint + ((pb - pa).perp.mulS (K.ofRat arrowOffset))).extend0

/-- Final phase of `build_board`: the Board's cell records, in input order.
Each cell keeps every geometric neighbor that is present in the cell set and
whose edge the registry does not mark as one-way in the reverse direction,
mapped to `Path::simple` between the two cell positions. -/
def cellRecords [DecidableEq C] [BaseCellOps C R] (cells : List C) (E : EdgesF C) :
    List CellRec :=
  cells.map (fun cell =>
    { neighbors :=
        ((BaseCellOps.neighbors (R := R) cell).filter
          (fun n => decide (edgeDir E cell n ≠ some .bToA))).filterMap
          (fun n => (cells.indexOf? n).map (fun j =>
            (j, PathK.simple (BaseCellOps.position (R := R) cell)
                  (BaseCellOps.position (R := R) (cells.getD j n)))))
      shape := BaseCellOps.shape (R := R) cell
      position := BaseCellOps.position (R := R) cell })

/-- Source: `bin/grid.rs`, `build_board`, parametrized by the run's hash-set
iteration orders `σ`. -/
def buildBoard [DecidableEq C] [DecidableEq R] [BaseCellOps C R] [BaseCornerOps R]
    (σ : HashOrd R) (cells : List C) (E : EdgesF C) (arrowOffset : ℚ) : Board :=
  let bd := classifyEdges cells E
  let cw := wallCorners σ bd.1
  let lineMesh : BoardMesh :=
    ⟨.playerColor, .indexedLineMesh (cw.map (fun c => (BaseCornerOps.position c).extend0))
      (wallLines σ bd.1 cw)⟩
  let tvs := triVertList σ bd.2
  let tris := triIdx σ bd.2 tvs
  let triMesh : BoardMesh :=
    ⟨.playerColor, .indexedTriMesh (tvs.map (triVertPos arrowOffset)) tris⟩
  { cells := cellRecords (R := R) cells E
    meshes := [lineMesh] ++ (if 0 < tris.length then [triMesh] else []) }

/-! ## Mesh loop extraction (source: `import.rs`) -/

/-- Source: `import.rs`, `IndexedLineMesh` (raw mesh positions are rational
triples; the import path involves no √3 arithmetic). -/
structure LineMeshI where
  vertices : List (ℚ × ℚ × ℚ)
  lns : List (ℕ × ℕ)

/-- Source: `IndexedLineMesh::neighbors`: the other endpoint of every mesh
line touching `v`. -/
def LineMeshI.nbrs (m : LineMeshI) (v : ℕ) : List ℕ :=
  (m.lns.filter (fun e => decide (e.1 = v ∨ e.2 = v))).map
    (fun e => if e.1 = v then e.2 else e.1)

/-- Source: `Loop::new`: canonicalize a vertex cycle by rotating it to begin
at its (first) minimum vertex index. -/
def loopNew (l : List ℕ) : List ℕ := l.rotateLeft (l.indexOf (l.min?.getD 0))

/-- Source: `Loop::edges`: consecutive vertex pairs including the wrap-around,
each canonicalized as `(min, max)`. -/
def loopEdges (l : List ℕ) : List (ℕ × ℕ) :=
  (l.zip (l.rotateLeft 1)).map (fun e => (min e.1 e.2, max e.1 e.2))

/-- One traversal of the loop walk (source: `process_gltf`, the inner `loop`).
`pickMax` stands for the `max_by_key` choice of the candidate forming the
largest `f32` angle with the incoming direction (angles are transcendental, so
the choice function is a parameter; a faithful instance returns an element of
the candidate list, and `none` exactly on the empty list).  Return value:
`none` models a panic (`unwrap` of `max_by_key` on no candidates, or fuel
exhaustion, which never occurs since each iteration consumes an unseen
vertex); `some none` an abandoned traversal; `some (some l)` a closed loop. -/
def walkLoop (m : LineMeshI) (pickMax : ℕ → ℕ → List ℕ → Option ℕ) (v : ℕ) :
    ℕ → ℕ → ℕ → List ℕ → List ℕ → Option (Option (List ℕ))
  | 0, _, _, _, _ => none
  | fuel + 1, a, b, seen, current =>
    let current2 := current ++ [a]
    if b = v then some (some current2)
    else if a ∈ seen then some none
    else
      match pickMax a b ((m.nbrs b).filter (fun x => decide (x ≠ a))) with
      | none => none
      | some c => walkLoop m pickMax v fuel b c (seen ++ [a]) current2

/-- All closed loops discovered from every starting directed edge, as the
insertion-ordered contents of the `HashSet<Loop>`; `none` models a panic in
some traversal. -/
def extractLoops (m : LineMeshI) (pickMax : ℕ → ℕ → List ℕ → Option ℕ) :
    Option (List (List ℕ)) :=
  (List.range m.vertices.length).foldl (fun acc v =>
    (m.nbrs v).foldl (fun acc2 next =>
      match acc2 with
      | none => none
      | some loops =>
        match walkLoop m pickMax v (2 * m.lns.length + 2) v next [] [] with
        | none => none
        | some none => some loops
        | some (some cur) => some (insertD loops (loopNew cur))) acc) (some [])

def ptOfQ (p : ℚ × ℚ) : Pt := ⟨K.ofRat p.1, K.ofRat p.2⟩

/-- Centroid used by the import: the unweighted average of the polygon
points. -/
def centroidOf (points : List Pt) : Pt :=
  (points.foldl (fun acc p => acc + p) (Pt.mk 0 0)).divS (K.ofRat (points.length : ℚ))

/-- The shapes of the surviving loops: each loop's vertex positions in loop
order. -/
def importShapes (loops : List (List ℕ)) (vpos : ℕ → ℚ × ℚ) : List Polygon :=
  loops.map (fun l => Polygon.mk (l.map (fun i => ptOfQ (vpos i))))

/-- The centroid positions of the surviving loops. -/
def importCPos (loops : List (List ℕ)) (vpos : ℕ → ℚ × ℚ) : List Pt :=
  (importShapes loops vpos).map (fun s => centroidOf s.points)

/-- The adjacency decision of the import (source: `process_gltf`, the
`positions` closure): loop `j` is a neighbor of loop `i` iff `i`'s edge set
minus `j`'s is nonempty (`difference.count() == 0` yields `false`) and the two
edge sets intersect. -/
def importNbrs (loops : List (List ℕ)) (i : ℕ) : List ℕ :=
  let edges := dedupF (loopEdges (loops.getD i []))
  (List.range loops.length).filter (fun j =>
    let ne := dedupF (loopEdges (loops.getD j []))
    if (edges.filter (fun e => decide (e ∉ ne))).length = 0 then false
    else decide (0 < (ne.filter (fun e => decide (e ∈ edges))).length))

/-- Source: `process_gltf`, the cell-record construction from the surviving
loops (the code after the perimeter filter). -/
def mkCells (loops : List (List ℕ)) (vpos : ℕ → ℚ × ℚ) : List CellRec :=
  (List.range loops.length).map (fun i =>
    { neighbors := (importNbrs loops i).map (fun j =>
        (j, PathK.simple ((importCPos loops vpos).getD i (Pt.mk 0 0))
              ((importCPos loops vpos).getD j (Pt.mk 0 0))))
      shape := (importShapes loops vpos).getD i ⟨[]⟩
      position := (importCPos loops vpos).getD i (Pt.mk 0 0) })

/-- Source: `process_gltf`, processing of one line-mesh primitive: extract
loops, compute the maximum loop perimeter (`.max().unwrap()` — `none` models
the panic when no loops were found), retain the strictly smaller loops, and
build the cell records.  `dist` stands for the `f32` Euclidean `Vec3`
distance (square roots are irrational, so it is a parameter); `σl` models the
hash iteration order in which the surviving loops are collected. -/
def processLineMesh (m : LineMeshI) (pickMax : ℕ → ℕ → List ℕ → Option ℕ)
    (dist : (ℚ × ℚ × ℚ) → (ℚ × ℚ × ℚ) → ℚ)
    (σl : List (List ℕ) → List (List ℕ)) : Option (List CellRec) :=
  match extractLoops m pickMax with
  | none => none
  | some loops =>
    let perim : List ℕ → ℚ := fun l =>
      ((loopEdges l).map (fun e =>
        dist (m.vertices.getD e.1 (0, 0, 0)) (m.vertices.getD e.2 (0, 0, 0)))).sum
    match (loops.map perim).max? with
    | none => none
    | some mx =>
      let survivors := σl (loops.filter (fun l => decide (perim l < mx)))
      some (mkCells survivors (fun i =>
        ((m.vertices.getD i (0, 0, 0)).1, (m.vertices.getD i (0, 0, 0)).2.1)))

/-! ## Auxiliary definitions used by the verification
(translations of cells/corners, the registry invariant, the specification's
ray-validity predicate, and the concrete inputs of witnesses and
counterexamples) -/

def Square.trCell (a o : Square.Cell) : Square.Cell := ⟨o.x + a.x, o.y + a.y⟩

def Square.trCor (a : Square.Cell) (k : Square.Corner) : Square.Corner :=
  ⟨k.x + a.x, k.y + a.y⟩

def Square.mapE (a : Square.Cell) (e : Square.Corner × Square.Corner) :
    Square.Corner × Square.Corner := (Square.trCor a e.1, Square.trCor a e.2)

def Hex.trCell (a o : Hex.Cell) : Hex.Cell := ⟨o.q + a.q, o.r + a.r⟩

def Hex.trCor (a : Hex.Cell) (k : Hex.Corner) : Hex.Corner :=
  ⟨k.q + a.q, k.r + a.r, k.left⟩

def Hex.mapE (a : Hex.Cell) (e : Hex.Corner × Hex.Corner) :
    Hex.Corner × Hex.Corner := (Hex.trCor a e.1, Hex.trCor a e.2)

/-- Default cell record for `List.getD` in theorem statements (the stated
index bounds ensure it is never selected). -/
def dRec : CellRec := ⟨[], ⟨[]⟩, ⟨0, 0⟩⟩

/-- The neighbors association list of one cell record of `cellRecords`. -/
def nbrsRec {C R : Type} [DecidableEq C] [BaseCellOps C R]
    (cells : List C) (E : EdgesF C) (cell : C) : List (ℕ × PathK) :=
  ((BaseCellOps.neighbors (R := R) cell).filter
    (fun n => decide (edgeDir E cell n ≠ some .bToA))).filterMap
    (fun n => (cells.indexOf? n).map (fun j =>
      (j, PathK.simple (BaseCellOps.position (R := R) cell)
            (BaseCellOps.position (R := R) (cells.getD j n)))))

/-- The registry invariant: for distinct cells at most one of the two
directions is recorded. -/
def EdgesInv {C : Type} (E : EdgesF C) : Prop :=
  ∀ a b : C, a ≠ b → ¬(E a b = true ∧ E b a = true)

/-- The specification's validity condition for a segment/ray intersection:
the segment is not parallel to the ray, the ray parameter (from the perp-dot
solution of the 2×2 linear system) is ≥ 0, and the segment parameter lies
within [0, 1]. -/
def specValidSeg (s : Pt × Pt) (origin dir : Pt) : Prop :=
  Pt.perpDot (s.2 - s.1) dir ≠ 0 ∧
  K.Nonneg ((Pt.perpDot (s.1 - origin) (s.2 - s.1)) / (Pt.perpDot dir (s.2 - s.1))) ∧
  K.Nonneg ((Pt.perpDot (origin - s.1) dir) / (Pt.perpDot (s.2 - s.1) dir)) ∧
  K.Nonneg (K.ofRat 1 - (Pt.perpDot (origin - s.1) dir) / (Pt.perpDot (s.2 - s.1) dir))

instance (s : Pt × Pt) (o d : Pt) : Decidable (specValidSeg s o d) := by
  unfold specValidSeg; infer_instance

/-! Concrete inputs used by witnesses and counterexamples. -/

/-- Vertex positions for the import counterexample (values are irrelevant to
the adjacency decision). -/
def vq : ℕ → ℚ × ℚ := fun i => ((i : ℚ), (0 : ℚ))

/-- Surviving-loop list exhibiting a proper edge-subset pair: the triangle
`[0,1,2]` and a non-simple loop through the same three edges plus three more
(such loops arise from bowtie-shaped meshes, where the closing walk passes
through the shared vertex twice). -/
def L2 : List (List ℕ) := [[0, 1, 2], [0, 3, 4, 0, 1, 2]]

/-- Surviving-loop list for the amended-claim witness: two triangles sharing
the edge `(1,2)`. -/
def L3 : List (List ℕ) := [[0, 1, 2], [1, 2, 3]]

/-- A one-cell square board. -/
def cells0 : List Square.Cell := [⟨0, 0⟩]

/-- A two-cell square board. -/
def cells1 : List Square.Cell := [⟨0, 0⟩, ⟨1, 0⟩]

/-- The empty registry on square cells. -/
def E0 : EdgesF Square.Cell := fun _ _ => false

/-- A hash iteration order that reverses the corner set (a permutation, as a
run of `std::collections::HashSet` with a different random seed may
produce). -/
def revOrd : HashOrd Square.Corner := ⟨id, List.reverse, id, id⟩

/-- The index buffers of a board's line meshes (a coordinate-free projection
of a `Board`). -/
def linesOfBoard (b : Board) : List (List (ℕ × ℕ)) :=
  b.meshes.map (fun m => match m.mesh with
    | .indexedLineMesh _ l => l
    | .indexedTriMesh _ _ => [])


/-! ## Helper lemmas: exact arithmetic in `K` -/

lemma K.extK {z w : K} (h1 : z.ra = w.ra) (h2 : z.sq = w.sq) : z = w := by
  cases z; cases w; simp_all

lemma K.mul_mk (a b c d : ℚ) : (K.mk a b) * (K.mk c d) = ⟨a * c + 3 * (b * d), a * d + b * c⟩ := rfl

lemma K.add_mk (a b c d : ℚ) : (K.mk a b) + (K.mk c d) = ⟨a + c, b + d⟩ := rfl

lemma K.sub_mk (a b c d : ℚ) : (K.mk a b) - (K.mk c d) = ⟨a - c, b - d⟩ := rfl

lemma K.neg_mk (a b : ℚ) : -(K.mk a b) = ⟨-a, -b⟩ := rfl

lemma K.div_def (z w : K) : z / w = z * K.inv w := rfl

lemma K.zero_def : (0 : K) = ⟨0, 0⟩ := rfl

lemma K.floorK_rat (q : ℚ) : K.floorK ⟨q, 0⟩ = ⌊q⌋ := by
  unfold K.floorK
  have h0 : (0 : ℚ).num = 0 := rfl
  have h1 : (0 : ℚ).den = 1 := rfl
  simp only [h0, h1]
  norm_num
  exact (Rat.floor_def).symm

lemma K.pos_rat (q : ℚ) : K.Pos ⟨q, 0⟩ ↔ 0 < q := by
  unfold K.Pos
  norm_num

lemma K.nonneg_rat (q : ℚ) : K.Nonneg ⟨q, 0⟩ ↔ 0 ≤ q := by
  simp only [K.Nonneg, K.neg_mk, neg_zero, K.pos_rat]
  constructor
  · intro h; linarith [not_lt.mp h]
  · intro h; exact not_lt.mpr (by linarith)

lemma K.roundAway_int (n : ℤ) : K.roundAway ⟨(n : ℚ), 0⟩ = n := by
  unfold K.roundAway
  rcases le_or_lt 0 (n : ℚ) with h | h
  · rw [if_pos ((K.nonneg_rat _).mpr h)]
    have heq : (K.mk (n : ℚ) 0) + K.ofRat (1 / 2) = ⟨(n : ℚ) + 1 / 2, 0⟩ := by
      rw [K.ofRat, K.add_mk]; norm_num
    rw [heq, K.floorK_rat]
    rw [Int.floor_int_add]
    norm_num
  · rw [if_neg (by rw [K.nonneg_rat]; exact not_le.mpr h)]
    have heq : -(K.mk (n : ℚ) 0) + K.ofRat (1 / 2) = ⟨(-n : ℚ) + 1 / 2, 0⟩ := by
      rw [K.neg_mk, K.ofRat, K.add_mk]; norm_num
    rw [heq]
    have hc : ((-n : ℚ) + 1 / 2) = ((-n : ℤ) : ℚ) + 1 / 2 := by push_cast; ring
    rw [hc, K.floorK_rat, Int.floor_int_add]
    norm_num

lemma K.roundWithDiff_int (n : ℤ) : K.roundWithDiff ⟨(n : ℚ), 0⟩ = (n, ⟨0, 0⟩) := by
  unfold K.roundWithDiff
  simp only [K.roundAway_int]
  have h1 : (K.mk (n : ℚ) 0) - K.ofInt n = ⟨0, 0⟩ := by
    rw [K.ofInt, K.sub_mk]; norm_num
  rw [h1]
  have h2 : K.abv ⟨0, 0⟩ = ⟨0, 0⟩ := by
    rw [K.abv, if_pos ((K.nonneg_rat 0).mpr le_rfl)]
  rw [h2]

lemma K.inv_mk_rat (q : ℚ) (h : q ≠ 0) : K.inv ⟨q, 0⟩ = ⟨1 / q, 0⟩ := by
  unfold K.inv
  rw [if_neg (by simpa using pow_ne_zero 2 h)]
  refine K.extK ?_ ?_
  · show q / (q ^ 2 - 3 * 0 ^ 2) = 1 / q
    have h2 : q ^ 2 - 3 * 0 ^ 2 = q * q := by ring
    rw [h2, ← div_div, div_self h, one_div]
  · show -0 / (q ^ 2 - 3 * 0 ^ 2) = 0
    norm_num

lemma K.div2_int (n : ℤ) : (K.ofInt n * K.ofRat 2) / K.ofRat 2 = ⟨(n : ℚ), 0⟩ := by
  rw [K.div_def]
  rw [K.ofInt, K.ofRat, K.inv_mk_rat 2 (by norm_num), K.mul_mk, K.mul_mk]
  refine K.extK ?_ ?_ <;> (simp; try ring)

/-! ## Helper lemmas: pick/position round trips -/

lemma sq_pick_position (c : Square.Cell) :
    Square.Cell.pick (Square.Cell.position c) = c := by
  cases c with
  | mk x y =>
    unfold Square.Cell.pick Square.Cell.position
    simp only [K.div2_int, K.roundAway_int]

lemma Hex.fracQ_position (c : Hex.Cell) :
    Hex.fracQ (Hex.Cell.position c) = ⟨(c.q : ℚ), 0⟩ := by
  unfold Hex.fracQ Hex.Cell.position
  simp only [K.div_def, K.ofInt, K.ofRat, K.rt3]
  rw [K.inv_mk_rat 3 (by norm_num), K.inv_mk_rat 2 (by norm_num)]
  simp only [K.mul_mk, K.add_mk]
  refine K.extK ?_ ?_ <;> (simp; try ring)

lemma Hex.fracR_position (c : Hex.Cell) :
    Hex.fracR (Hex.Cell.position c) = ⟨(c.r : ℚ), 0⟩ := by
  unfold Hex.fracR Hex.Cell.position
  simp only [K.div_def, K.ofInt, K.ofRat, K.rt3]
  rw [K.inv_mk_rat 3 (by norm_num), K.inv_mk_rat 2 (by norm_num)]
  simp only [K.mul_mk, K.add_mk]
  refine K.extK ?_ ?_ <;> (simp; try ring)

lemma hex_pick_position (c : Hex.Cell) :
    Hex.Cell.pick (Hex.Cell.position c) = c := by
  cases c with
  | mk q r =>
    unfold Hex.Cell.pick
    rw [Hex.fracQ_position, Hex.fracR_position]
    have hs : -(K.mk ((Hex.Cell.mk q r).q : ℚ) 0) - ⟨((Hex.Cell.mk q r).r : ℚ), 0⟩ =
        ⟨(((-q - r : ℤ)) : ℚ), 0⟩ := by
      rw [K.neg_mk, K.sub_mk]
      refine K.extK ?_ ?_ <;> (push_cast; ring)
    rw [hs]
    simp only [K.roundWithDiff_int]
    have hz : (K.mk 0 0) - ⟨0, 0⟩ = ⟨0, 0⟩ := by
      rw [K.sub_mk]; norm_num
    have hp : ¬ K.Pos ((K.mk 0 0) - ⟨0, 0⟩) := by
      rw [hz]
      intro h
      exact absurd ((K.pos_rat 0).mp h) (lt_irrefl 0)
    simp only [hp, and_self, if_false, false_and, if_neg, not_false_iff]

/-! ## Helper lemmas: translation equivariance of `neighboring_edge` -/

lemma mapIsSome {α β : Type} (f : α → β) (z : Option α) :
    (Option.map f z).isSome = z.isSome := by cases z <;> rfl

lemma head_filter_tr {α β : Type} (f : α → β) (p : α → Bool) (q : β → Bool)
    (hpq : ∀ x, q (f x) = p x) (l : List α) :
    ((l.map f).filter q).head? = ((l.filter p).head?).map f := by
  rw [List.filter_map, ← List.head?_map]
  have h : ∀ x ∈ l, (q ∘ f) x = p x := fun x _ => hpq x
  rw [List.filter_congr h]

lemma sq_neighbors_eq (a : Square.Cell) :
    BaseCellOps.neighbors (R := Square.Corner) a =
      [Square.Cell.mk 1 0, ⟨0, 1⟩, ⟨-1, 0⟩, ⟨0, -1⟩].map (Square.trCell a) := rfl

lemma sq_lns_tr (a o : Square.Cell) :
    BaseCellOps.lns (C := Square.Cell) (Square.trCell a o) =
      (BaseCellOps.lns (C := Square.Cell) o).map (Square.mapE a) := by
  simp [BaseCellOps.lns, Square.Cell.lns, Square.Cell.corners, Square.trCell, Square.trCor,
    Square.mapE, Square.Corner.mk.injEq]
  omega

lemma sq_trCor_inj (a : Square.Cell) : Function.Injective (Square.trCor a) := by
  intro u v h
  simp only [Square.trCor, Square.Corner.mk.injEq] at h
  cases u; cases v; simp_all

lemma sq_mapE_inj (a : Square.Cell) : Function.Injective (Square.mapE a) := by
  intro u v h
  simp only [Square.mapE, Prod.mk.injEq] at h
  exact Prod.ext (sq_trCor_inj a h.1) (sq_trCor_inj a h.2)

lemma sq_ne_tr (a o₁ o₂ : Square.Cell) :
    neighboringEdge (Square.trCell a o₁) (Square.trCell a o₂) =
      (neighboringEdge o₁ o₂).map (Square.mapE a) := by
  unfold neighboringEdge
  rw [sq_lns_tr, sq_lns_tr]
  have hrev : (((BaseCellOps.lns (C := Square.Cell) o₂).map (Square.mapE a)).map revEdge) =
      (((BaseCellOps.lns (C := Square.Cell) o₂).map revEdge).map (Square.mapE a)) := by
    rw [List.map_map, List.map_map]; rfl
  rw [hrev]
  exact head_filter_tr (Square.mapE a) _ _
    (fun x => by rw [decide_eq_decide]; exact List.mem_map_of_injective (sq_mapE_inj a)) _

lemma sq_trCell_zero (a : Square.Cell) : Square.trCell a ⟨0, 0⟩ = a := by
  cases a; simp [Square.trCell]

lemma hex_neighbors_eq (a : Hex.Cell) :
    BaseCellOps.neighbors (R := Hex.Corner) a =
      [Hex.Cell.mk (-1) 0, ⟨-1, 1⟩, ⟨0, -1⟩, ⟨0, 1⟩, ⟨1, -1⟩, ⟨1, 0⟩].map (Hex.trCell a) := by
  simp [BaseCellOps.neighbors, Hex.Cell.neighbors, Hex.trCell, Hex.Cell.mk.injEq]
  omega

lemma hex_lns_tr (a o : Hex.Cell) :
    BaseCellOps.lns (C := Hex.Cell) (Hex.trCell a o) =
      (BaseCellOps.lns (C := Hex.Cell) o).map (Hex.mapE a) := by
  simp [BaseCellOps.lns, Hex.Cell.lns, Hex.Cell.corners, Hex.trCell, Hex.trCor,
    Hex.mapE, Hex.Corner.mk.injEq]
  omega

lemma hex_trCor_inj (a : Hex.Cell) : Function.Injective (Hex.trCor a) := by
  intro u v h
  simp only [Hex.trCor, Hex.Corner.mk.injEq] at h
  cases u; cases v; simp_all

lemma hex_mapE_inj (a : Hex.Cell) : Function.Injective (Hex.mapE a) := by
  intro u v h
  simp only [Hex.mapE, Prod.mk.injEq] at h
  exact Prod.ext (hex_trCor_inj a h.1) (hex_trCor_inj a h.2)

lemma hex_ne_tr (a o₁ o₂ : Hex.Cell) :
    neighboringEdge (Hex.trCell a o₁) (Hex.trCell a o₂) =
      (neighboringEdge o₁ o₂).map (Hex.mapE a) := by
  unfold neighboringEdge
  rw [hex_lns_tr, hex_lns_tr]
  have hrev : (((BaseCellOps.lns (C := Hex.Cell) o₂).map (Hex.mapE a)).map revEdge) =
      (((BaseCellOps.lns (C := Hex.Cell) o₂).map revEdge).map (Hex.mapE a)) := by
    rw [List.map_map, List.map_map]; rfl
  rw [hrev]
  exact head_filter_tr (Hex.mapE a) _ _
    (fun x => by rw [decide_eq_decide]; exact List.mem_map_of_injective (hex_mapE_inj a)) _

lemma hex_trCell_zero (a : Hex.Cell) : Hex.trCell a ⟨0, 0⟩ = a := by
  cases a; simp [Hex.trCell]

/-! ## Claim theorems -/

/-- C2: the spec claims a mesh in which the loop walk finds zero closed loops
yields an empty cell list and processing continues.  The code instead panics:
`loops.iter().map(..).max().unwrap()` unwraps `None` when the loop set is
empty.  This theorem evaluates the embedded pipeline at such a mesh (one
vertex, no lines — every traversal set is empty, so zero loops are found) and
shows it reaches the panic (`none`) rather than producing `some []`, for every
angle-choice oracle, distance function and hash order. -/
theorem c2_zero_loops_panic :
    ∀ (pickMax : ℕ → ℕ → List ℕ → Option ℕ) (dist : (ℚ × ℚ × ℚ) → (ℚ × ℚ × ℚ) → ℚ)
      (σl : List (List ℕ) → List (List ℕ)),
      processLineMesh ⟨[(0, 0, 0)], []⟩ pickMax dist σl = none :=
  fun _ _ _ => rfl

/-- C3: for every cell of either tiling variant, picking the cell's canonical
world-space center returns the same cell, with no off-by-one from the hex
cube-rounding correction; in particular the hex scenario cell `{q:2, r:-1}`
round-trips exactly. -/
theorem c3_pick_position_round_trip :
    (∀ c : Square.Cell, Square.Cell.pick (Square.Cell.position c) = c) ∧
    (∀ c : Hex.Cell, Hex.Cell.pick (Hex.Cell.position c) = c) ∧
    Hex.Cell.pick (Hex.Cell.position ⟨2, -1⟩) = ⟨2, -1⟩ :=
  ⟨sq_pick_position, hex_pick_position, hex_pick_position ⟨2, -1⟩⟩

/-- C4: for adjacent cells of the same tiling variant, `neighboring_edge`
never reaches its `NotAdjacent` failure (`.expect`) branch: some edge of `a`
whose reverse occurs in `b`'s edge list exists and is returned.  Since Board
Synthesis invokes `neighboring_edge` only on pairs `(c, n)` with
`n ∈ c.neighbors()`, which is exactly `adjacent_to`, no synthesis call
triggers the failure. -/
theorem c4_neighboring_edge_total :
    (∀ a b : Square.Cell, adjacentTo (R := Square.Corner) a b →
      (neighboringEdge a b).isSome) ∧
    (∀ a b : Hex.Cell, adjacentTo (R := Hex.Corner) a b →
      (neighboringEdge a b).isSome) := by
  constructor
  · intro a b h
    rw [adjacentTo, sq_neighbors_eq, List.mem_map] at h
    obtain ⟨o, ho, rfl⟩ := h
    have h1 := sq_ne_tr a ⟨0, 0⟩ o
    rw [sq_trCell_zero] at h1
    rw [h1, mapIsSome]
    fin_cases ho <;> decide
  · intro a b h
    rw [adjacentTo, hex_neighbors_eq, List.mem_map] at h
    obtain ⟨o, ho, rfl⟩ := h
    have h1 := hex_ne_tr a ⟨0, 0⟩ o
    rw [hex_trCell_zero] at h1
    rw [h1, mapIsSome]
    fin_cases ho <;> decide

/-- Witness for C4 at concrete adjacent cells of both variants. -/
theorem c4_witness :
    (neighboringEdge (⟨0, 0⟩ : Square.Cell) ⟨1, 0⟩).isSome ∧
    (neighboringEdge (⟨0, 0⟩ : Hex.Cell) ⟨1, 0⟩).isSome :=
  ⟨c4_neighboring_edge_total.1 ⟨0, 0⟩ ⟨1, 0⟩ (by decide),
   c4_neighboring_edge_total.2 ⟨0, 0⟩ ⟨1, 0⟩ (by decide)⟩

/-- C5: for adjacent cells of the same tiling variant, reversing the corner
pair returned by `neighboring_edge(a, b)` yields exactly the corner pair
returned by `neighboring_edge(b, a)`. -/
theorem c5_edge_reciprocity :
    (∀ a b : Square.Cell, adjacentTo (R := Square.Corner) a b →
      (neighboringEdge a b).map revEdge = neighboringEdge b a) ∧
    (∀ a b : Hex.Cell, adjacentTo (R := Hex.Corner) a b →
      (neighboringEdge a b).map revEdge = neighboringEdge b a) := by
  constructor
  · intro a b h
    rw [adjacentTo, sq_neighbors_eq, List.mem_map] at h
    obtain ⟨o, ho, rfl⟩ := h
    have h1 := sq_ne_tr a ⟨0, 0⟩ o
    have h2 := sq_ne_tr a o ⟨0, 0⟩
    rw [sq_trCell_zero] at h1 h2
    rw [h1, h2]
    have comm : ∀ (z : Option (Square.Corner × Square.Corner)),
        (z.map (Square.mapE a)).map revEdge = (z.map revEdge).map (Square.mapE a) := by
      intro z; cases z <;> rfl
    rw [comm]
    congr 1
    fin_cases ho <;> decide
  · intro a b h
    rw [adjacentTo, hex_neighbors_eq, List.mem_map] at h
    obtain ⟨o, ho, rfl⟩ := h
    have h1 := hex_ne_tr a ⟨0, 0⟩ o
    have h2 := hex_ne_tr a o ⟨0, 0⟩
    rw [hex_trCell_zero] at h1 h2
    rw [h1, h2]
    have comm : ∀ (z : Option (Hex.Corner × Hex.Corner)),
        (z.map (Hex.mapE a)).map revEdge = (z.map revEdge).map (Hex.mapE a) := by
      intro z; cases z <;> rfl
    rw [comm]
    congr 1
    fin_cases ho <;> decide

/-- Witness for C5 at concrete adjacent cells of both variants. -/
theorem c5_witness :
    (neighboringEdge (⟨0, 0⟩ : Square.Cell) ⟨1, 0⟩).map revEdge =
      neighboringEdge (⟨1, 0⟩ : Square.Cell) ⟨0, 0⟩ ∧
    (neighboringEdge (⟨0, 0⟩ : Hex.Cell) ⟨1, 0⟩).map revEdge =
      neighboringEdge (⟨1, 0⟩ : Hex.Cell) ⟨0, 0⟩ :=
  ⟨c5_edge_reciprocity.1 ⟨0, 0⟩ ⟨1, 0⟩ (by decide),
   c5_edge_reciprocity.2 ⟨0, 0⟩ ⟨1, 0⟩ (by decide)⟩

/-! ## Helper lemmas: lists, association lists, hash-set models -/

lemma indexOf?_some_spec {α : Type} [DecidableEq α] {l : List α} {a : α} :
    ∀ {j : ℕ}, l.indexOf? a = some j → j < l.length ∧ l.getD j a = a := by
  induction l with
  | nil => intro j h; simp [List.indexOf?_nil] at h
  | cons x xs ih =>
    intro j h
    rw [List.indexOf?_cons] at h
    by_cases hx : x = a
    · rw [if_pos (by simpa using hx)] at h
      cases h
      simpa using hx
    · rw [if_neg (by simpa using hx)] at h
      match j, h with
      | 0, h => exact absurd h (by cases hxs : xs.indexOf? a <;> simp [hxs])
      | j' + 1, h =>
        have h2 : xs.indexOf? a = some j' := by
          cases hxs : xs.indexOf? a with
          | none => rw [hxs] at h; simp at h
          | some k => rw [hxs] at h; simp at h; simpa [h]
        obtain ⟨h3, h4⟩ := ih h2
        exact ⟨by simpa using h3, by simpa using h4⟩

lemma indexOf?_get_of_nodup {α : Type} [DecidableEq α] {l : List α} (hnd : l.Nodup) :
    ∀ (j : ℕ) (hj : j < l.length), l.indexOf? (l.get ⟨j, hj⟩) = some j := by
  induction l with
  | nil => intro j hj; simp at hj
  | cons x xs ih =>
    intro j hj
    rw [List.indexOf?_cons]
    match j with
    | 0 => simp
    | j' + 1 =>
      have hne : x ≠ xs.get ⟨j', by simpa using hj⟩ := by
        intro hx
        exact (List.nodup_cons.mp hnd).1 (hx ▸ List.get_mem xs j' (by simpa using hj))
      rw [if_neg (by simpa using hne)]
      rw [show (x :: xs).get ⟨j' + 1, hj⟩ = xs.get ⟨j', by simpa using hj⟩ from rfl]
      rw [ih (List.nodup_cons.mp hnd).2 j' (by simpa using hj)]
      rfl

lemma lookup_eq_of {β : Type} (l : List (ℕ × β)) (j : ℕ) (v : β)
    (hmem : j ∈ l.map Prod.fst) (hval : ∀ p ∈ l, p.1 = j → p.2 = v) :
    l.lookup j = some v := by
  induction l with
  | nil => simp at hmem
  | cons p ps ih =>
    by_cases hp : j = p.1
    · have hv : p.2 = v := hval p (by simp) hp.symm
      simp [List.lookup, hp, hv]
    · have hbeq : (j == p.1) = false := beq_eq_false_iff_ne.mpr hp
      have hmem2 : j ∈ ps.map Prod.fst := by
        rcases List.mem_map.mp hmem with ⟨q, hq, hq2⟩
        rcases List.mem_cons.mp hq with hq3 | hq3
        · exact absurd (hq3 ▸ hq2) (fun h => hp h.symm)
        · exact List.mem_map.mpr ⟨q, hq3, hq2⟩
      have hres := ih hmem2 (fun q hq hq2 => hval q (List.mem_cons_of_mem p hq) hq2)
      simp [List.lookup, hbeq, hres]

lemma mem_insertD {α : Type} [DecidableEq α] (l : List α) (x a : α) :
    a ∈ insertD l x ↔ a ∈ l ∨ a = x := by
  unfold insertD
  split_ifs with h
  · constructor
    · exact Or.inl
    · rintro (h2 | rfl)
      · exact h2
      · exact h
  · simp

lemma mem_foldl_insertD {α : Type} [DecidableEq α] (l : List α) :
    ∀ (acc : List α) (a : α), a ∈ l.foldl insertD acc ↔ a ∈ acc ∨ a ∈ l := by
  induction l with
  | nil => simp
  | cons x xs ih =>
    intro acc a
    rw [List.foldl_cons, ih, mem_insertD]
    constructor
    · rintro ((h | rfl) | h)
      · exact Or.inl h
      · exact Or.inr (by simp)
      · exact Or.inr (by simp [h])
    · rintro (h | h)
      · exact Or.inl (Or.inl h)
      · rcases List.mem_cons.mp h with rfl | h2
        · exact Or.inl (Or.inr rfl)
        · exact Or.inr h2

lemma mem_dedupF {α : Type} [DecidableEq α] (l : List α) (a : α) :
    a ∈ dedupF l ↔ a ∈ l := by
  rw [dedupF, mem_foldl_insertD]
  simp

lemma nodup_insertD {α : Type} [DecidableEq α] {l : List α} (h : l.Nodup) (x : α) :
    (insertD l x).Nodup := by
  unfold insertD
  split_ifs with hx
  · exact h
  · simp [List.nodup_append, h, hx]

lemma nodup_foldl_insertD {α : Type} [DecidableEq α] (l : List α) :
    ∀ (acc : List α), acc.Nodup → (l.foldl insertD acc).Nodup := by
  induction l with
  | nil => exact fun acc h => h
  | cons x xs ih =>
    intro acc h
    rw [List.foldl_cons]
    exact ih _ (nodup_insertD h x)

lemma nodup_dedupF {α : Type} [DecidableEq α] (l : List α) : (dedupF l).Nodup :=
  nodup_foldl_insertD l [] List.nodup_nil

/-! ## Helper lemmas: the registry invariant -/

lemma edgesInv_empty {C : Type} : EdgesInv (emptyEdges (C := C)) := by
  intro a b _ h
  exact absurd h.1 (by simp [emptyEdges])

lemma edgesInv_add {C : Type} [DecidableEq C] {E : EdgesF C} (h : EdgesInv E) (f t : C) :
    EdgesInv (addOneWayEdge E f t) := by
  intro a b hab hcon
  unfold addOneWayEdge at hcon
  obtain ⟨h1, h2⟩ := hcon
  split_ifs at h1 h2 <;> simp_all
  exact h a b hab ⟨h1, h2⟩

lemma edgesInv_remove {C : Type} [DecidableEq C] {E : EdgesF C} (h : EdgesInv E) (c : C) :
    EdgesInv (removeCellE E c) := by
  intro a b hab hcon
  unfold removeCellE at hcon
  obtain ⟨h1, h2⟩ := hcon
  split_ifs at h1 h2 <;> simp_all
  exact h a b hab ⟨h1, h2⟩

lemma edgesInv_foldl {C : Type} [DecidableEq C] (ops : List (EdgeOp C)) :
    ∀ (E : EdgesF C), EdgesInv E → EdgesInv (ops.foldl (fun E op => match op with
      | .addOneWay f t => addOneWayEdge E f t
      | .removeCell c => removeCellE E c) E) := by
  induction ops with
  | nil => exact fun _ h => h
  | cons op rest ih =>
    intro E h
    rw [List.foldl_cons]
    apply ih
    cases op with
    | addOneWay f t => exact edgesInv_add h f t
    | removeCell c => exact edgesInv_remove h c

/-! ## Helper lemmas: cell records of Board Synthesis -/

lemma edgeDir_ne_bToA {C : Type} {E : EdgesF C} [DecidableEq C]
    (hinv : ∀ a b : C, ¬(E a b = true ∧ E b a = true)) (a b : C) :
    (edgeDir E a b ≠ some .bToA) ↔ ¬(E b a = true) := by
  unfold edgeDir
  by_cases h1 : E a b = true
  · simp only [h1, if_true]
    constructor
    · intro _ hba
      exact hinv a b ⟨h1, hba⟩
    · intro _ h
      exact EdgeDir.noConfusion (Option.some.inj h)
  · by_cases h2 : E b a = true <;> simp [h1, h2]

lemma cellRecords_eq {C R : Type} [DecidableEq C] [BaseCellOps C R]
    (cells : List C) (E : EdgesF C) :
    cellRecords (R := R) cells E = cells.map (fun cell =>
      CellRec.mk (nbrsRec (R := R) cells E cell)
        (BaseCellOps.shape (R := R) cell)
        (BaseCellOps.position (R := R) cell)) := rfl

lemma c1_key_mem {C R : Type} [DecidableEq C] [BaseCellOps C R]
    (cells : List C) (E : EdgesF C) (hnd : cells.Nodup)
    (hinv : ∀ a b : C, ¬(E a b = true ∧ E b a = true))
    {i j : ℕ} (hi : i < cells.length) (hj : j < cells.length) :
    (j ∈ (nbrsRec (R := R) cells E (cells.get ⟨i, hi⟩)).map Prod.fst ↔
      (cells.get ⟨j, hj⟩ ∈ BaseCellOps.neighbors (R := R) (cells.get ⟨i, hi⟩) ∧
        ¬(E (cells.get ⟨j, hj⟩) (cells.get ⟨i, hi⟩) = true))) := by
  set ci := cells.get ⟨i, hi⟩
  set cj := cells.get ⟨j, hj⟩
  unfold nbrsRec
  constructor
  · intro hmem
    rcases List.mem_map.mp hmem with ⟨p, hp, hp1⟩
    rcases List.mem_filterMap.mp hp with ⟨n, hn, hgn⟩
    rcases Option.map_eq_some'.mp hgn with ⟨j', hj', hpj⟩
    have hj'j : j' = j := by rw [← hp1, ← hpj]
    subst hj'j
    obtain ⟨hjlen, hget⟩ := indexOf?_some_spec hj'
    have hncj : n = cj := by
      have hh : cells.getD j' n = cj := by
        rw [List.getD_eq_getElem cells n hjlen]
        simp [cj, List.get_eq_getElem]
      rw [← hget, hh]
    rcases List.mem_filter.mp hn with ⟨hnn, hpred⟩
    subst hncj
    refine ⟨hnn, ?_⟩
    exact (edgeDir_ne_bToA hinv ci cj).mp (of_decide_eq_true hpred)
  · rintro ⟨hmem, hrev⟩
    have hpred : decide (edgeDir E ci cj ≠ some .bToA) = true :=
      decide_eq_true ((edgeDir_ne_bToA hinv ci cj).mpr hrev)
    have hflt : cj ∈ (BaseCellOps.neighbors (R := R) ci).filter
        (fun n => decide (edgeDir E ci n ≠ some .bToA)) :=
      List.mem_filter.mpr ⟨hmem, hpred⟩
    have hidx : cells.indexOf? cj = some j := indexOf?_get_of_nodup hnd j hj
    refine List.mem_map.mpr ⟨(j, PathK.simple (BaseCellOps.position (R := R) ci)
      (BaseCellOps.position (R := R) (cells.getD j cj))), ?_, rfl⟩
    refine List.mem_filterMap.mpr ⟨cj, hflt, ?_⟩
    rw [hidx]
    rfl

lemma c1_lookup {C R : Type} [DecidableEq C] [BaseCellOps C R]
    (cells : List C) (E : EdgesF C) (hnd : cells.Nodup)
    (hinv : ∀ a b : C, ¬(E a b = true ∧ E b a = true))
    {i j : ℕ} (hi : i < cells.length) (hj : j < cells.length)
    (hmem : cells.get ⟨j, hj⟩ ∈ BaseCellOps.neighbors (R := R) (cells.get ⟨i, hi⟩))
    (hrev : ¬(E (cells.get ⟨j, hj⟩) (cells.get ⟨i, hi⟩) = true)) :
    (nbrsRec (R := R) cells E (cells.get ⟨i, hi⟩)).lookup j =
      some (PathK.simple (BaseCellOps.position (R := R) (cells.get ⟨i, hi⟩))
        (BaseCellOps.position (R := R) (cells.get ⟨j, hj⟩))) := by
  set ci := cells.get ⟨i, hi⟩ with hci
  set cj := cells.get ⟨j, hj⟩ with hcj
  apply lookup_eq_of
  · exact (c1_key_mem (R := R) cells E hnd hinv hi hj).mpr ⟨hmem, hrev⟩
  · intro p hp hp1
    unfold nbrsRec at hp
    rcases List.mem_filterMap.mp hp with ⟨n, hn, hgn⟩
    rcases Option.map_eq_some'.mp hgn with ⟨j', hj', hpj⟩
    have hj'j : j' = j := by rw [← hp1, ← hpj]
    subst hj'j
    obtain ⟨hjlen, hget⟩ := indexOf?_some_spec hj'
    have hgd : cells.getD j' n = cj := by
      rw [List.getD_eq_getElem cells n hjlen]
      simp [hcj, List.get_eq_getElem]
    rw [← hpj]
    show PathK.simple (BaseCellOps.position (R := R) ci)
        (BaseCellOps.position (R := R) (cells.getD j' n)) = _
    rw [hgd]

/-! ## Helper lemmas: import cell records -/

lemma mkCells_getD (loops : List (List ℕ)) (vpos : ℕ → ℚ × ℚ) {i : ℕ}
    (hi : i < loops.length) :
    (mkCells loops vpos).getD i dRec =
      { neighbors := (importNbrs loops i).map (fun j =>
          (j, PathK.simple ((importCPos loops vpos).getD i (Pt.mk 0 0))
                ((importCPos loops vpos).getD j (Pt.mk 0 0))))
        shape := (importShapes loops vpos).getD i ⟨[]⟩
        position := (importCPos loops vpos).getD i (Pt.mk 0 0) } := by
  rw [mkCells, List.getD_eq_getElem _ _ (by simpa using hi)]
  simp

lemma mem_importNbrs (loops : List (List ℕ)) (i j : ℕ) (hj : j < loops.length) :
    (j ∈ importNbrs loops i ↔
      ((∃ e ∈ loopEdges (loops.getD i []), e ∈ loopEdges (loops.getD j [])) ∧
        ¬(∀ e ∈ loopEdges (loops.getD i []), e ∈ loopEdges (loops.getD j [])))) := by
  unfold importNbrs
  rw [List.mem_filter]
  simp only [List.mem_range, hj, true_and]
  split_ifs with hsub
  · rw [List.length_eq_zero] at hsub
    have hall : ∀ e ∈ loopEdges (loops.getD i []), e ∈ loopEdges (loops.getD j []) := by
      intro e he
      by_contra hne
      have hmem : e ∈ (dedupF (loopEdges (loops.getD i []))).filter
          (fun e => decide (e ∉ dedupF (loopEdges (loops.getD j [])))) :=
        List.mem_filter.mpr ⟨(mem_dedupF _ _).mpr he,
          decide_eq_true (fun hx => hne ((mem_dedupF _ _).mp hx))⟩
      rw [hsub] at hmem
      simp at hmem
    exact iff_of_false (by simp) (fun h => h.2 hall)
  · constructor
    · intro hpos
      rw [decide_eq_true_eq, List.length_pos] at hpos
      rcases List.exists_mem_of_ne_nil _ hpos with ⟨e, he⟩
      rcases List.mem_filter.mp he with ⟨hene, hee⟩
      refine ⟨⟨e, ?_, ?_⟩, ?_⟩
      · exact (mem_dedupF _ _).mp (of_decide_eq_true hee)
      · exact (mem_dedupF _ _).mp hene
      · intro hall
        apply hsub
        rw [List.length_eq_zero, List.filter_eq_nil]
        intro x hx
        simp only [decide_not, Bool.not_eq_true', decide_eq_false_iff_not, not_not]
        exact (mem_dedupF _ _).mpr (hall x ((mem_dedupF _ _).mp hx))
    · rintro ⟨⟨e, hei, hej⟩, _⟩
      rw [decide_eq_true_eq, List.length_pos]
      intro hnil
      have hmem : e ∈ (dedupF (loopEdges (loops.getD j []))).filter
          (fun e => decide (e ∈ dedupF (loopEdges (loops.getD i [])))) :=
        List.mem_filter.mpr ⟨(mem_dedupF _ _).mpr hej,
          decide_eq_true ((mem_dedupF _ _).mpr hei)⟩
      rw [hnil] at hmem
      simp at hmem

lemma c6_lookup (loops : List (List ℕ)) (vpos : ℕ → ℚ × ℚ) (i j : ℕ)
    (hmem : j ∈ importNbrs loops i) :
    ((importNbrs loops i).map (fun j =>
        (j, PathK.simple ((importCPos loops vpos).getD i (Pt.mk 0 0))
              ((importCPos loops vpos).getD j (Pt.mk 0 0))))).lookup j =
      some (PathK.simple ((importCPos loops vpos).getD i (Pt.mk 0 0))
        ((importCPos loops vpos).getD j (Pt.mk 0 0))) := by
  apply lookup_eq_of
  · rw [List.map_map]
    simpa using hmem
  · intro p hp hp1
    rcases List.mem_map.mp hp with ⟨j', _, hj2⟩
    have hjj : j' = j := by rw [← hp1, ← hj2]
    subst hjj
    rw [← hj2]

/-! ## Helper lemmas: concrete polygon evaluations -/

lemma pt_add_mk (a b c d : K) : (Pt.mk a b) + (Pt.mk c d) = ⟨a + c, b + d⟩ := rfl

lemma pt_sub_mk (a b c d : K) : (Pt.mk a b) - (Pt.mk c d) = ⟨a - c, b - d⟩ := rfl

lemma K.mk_eq_zero (a b : ℚ) : (K.mk a b = 0) ↔ (a = 0 ∧ b = 0) := by
  rw [K.zero_def, K.mk.injEq]

lemma sq_pos00 : Square.Cell.position ⟨0, 0⟩ = ⟨⟨0, 0⟩, ⟨0, 0⟩⟩ := by
  unfold Square.Cell.position
  simp only [K.ofInt, K.ofRat, K.mul_mk]
  norm_num

lemma sq_shape00 : Square.Cell.shape ⟨0, 0⟩ =
    Polygon.mk [⟨⟨-1, 0⟩, ⟨-1, 0⟩⟩, ⟨⟨1, 0⟩, ⟨-1, 0⟩⟩, ⟨⟨1, 0⟩, ⟨1, 0⟩⟩, ⟨⟨-1, 0⟩, ⟨1, 0⟩⟩] := by
  unfold Square.Cell.shape
  rw [sq_pos00]
  simp only [K.ofRat, List.map, pt_add_mk, K.add_mk]
  norm_num

/-! ## Remaining claim theorems -/

/-- C1: the Board produced by Board Synthesis preserves the input cell order
as its cell index order (same length, record `i` carries cell `i`'s shape and
position); cell record `i`'s adjacency map contains key `j` iff `cells[j]` is
a geometric neighbor of `cells[i]` and the registry does not record the pair
as one-way in the reverse direction (from `cells[j]` to `cells[i]`); every
present entry maps to `Path::simple` from `cells[i]`'s position to
`cells[j]`'s position, and a simple path has exactly the two keyframes 0 and
1 at the two endpoint positions.  The registry carries the invariant
established by C10 (at most one direction per pair, which is what
`add_one_way_edge` maintains); the cell set is deduplicated, as stated. -/
theorem c1_board_synthesis_cell_records {C R : Type} [DecidableEq C] [DecidableEq R]
    [BaseCellOps C R] [BaseCornerOps R]
    (σ : HashOrd R) (cells : List C) (E : EdgesF C) (off : ℚ)
    (hnd : cells.Nodup) (hinv : ∀ a b : C, ¬(E a b = true ∧ E b a = true))
    (i j : ℕ) (hi : i < cells.length) (hj : j < cells.length) :
    ((buildBoard σ cells E off).cells.length = cells.length) ∧
    (((buildBoard σ cells E off).cells.getD i dRec).position =
      BaseCellOps.position (R := R) (cells.get ⟨i, hi⟩)) ∧
    (((buildBoard σ cells E off).cells.getD i dRec).shape =
      BaseCellOps.shape (R := R) (cells.get ⟨i, hi⟩)) ∧
    ((j ∈ ((buildBoard σ cells E off).cells.getD i dRec).neighbors.map Prod.fst) ↔
      (cells.get ⟨j, hj⟩ ∈ BaseCellOps.neighbors (R := R) (cells.get ⟨i, hi⟩) ∧
        ¬(E (cells.get ⟨j, hj⟩) (cells.get ⟨i, hi⟩) = true))) ∧
    (cells.get ⟨j, hj⟩ ∈ BaseCellOps.neighbors (R := R) (cells.get ⟨i, hi⟩) →
      ¬(E (cells.get ⟨j, hj⟩) (cells.get ⟨i, hi⟩) = true) →
      ((buildBoard σ cells E off).cells.getD i dRec).neighbors.lookup j =
        some (PathK.simple (BaseCellOps.position (R := R) (cells.get ⟨i, hi⟩))
          (BaseCellOps.position (R := R) (cells.get ⟨j, hj⟩)))) ∧
    (∀ s e : Pt, (PathK.simple s e).kfs = [(0, s), (1, e)]) := by
  have hcells : (buildBoard σ cells E off).cells = cellRecords (R := R) cells E := rfl
  have hgd : (cellRecords (R := R) cells E).getD i dRec =
      CellRec.mk (nbrsRec (R := R) cells E (cells.get ⟨i, hi⟩))
        (BaseCellOps.shape (R := R) (cells.get ⟨i, hi⟩))
        (BaseCellOps.position (R := R) (cells.get ⟨i, hi⟩)) := by
    rw [cellRecords_eq, List.getD_eq_getElem _ _ (by simpa using hi)]
    simp [List.get_eq_getElem]
  refine ⟨?_, ?_, ?_, ?_, ?_, fun s e => rfl⟩
  · rw [hcells, cellRecords_eq]
    simp
  · rw [hcells, hgd]
  · rw [hcells, hgd]
  · rw [hcells, hgd]
    exact c1_key_mem (R := R) cells E hnd hinv hi hj
  · intro hmem hrev
    rw [hcells, hgd]
    exact c1_lookup (R := R) cells E hnd hinv hi hj hmem hrev

/-- Witness for C1: a two-cell square board with the empty registry; key 1 is
present in record 0's adjacency map. -/
theorem c1_witness :
    cells1.Nodup ∧ (0 : ℕ) < cells1.length ∧ (1 : ℕ) < cells1.length ∧
    (((buildBoard idOrd cells1 E0 (14 / 100)).cells.length = cells1.length) ∧
      (((buildBoard idOrd cells1 E0 (14 / 100)).cells.getD 0 dRec).position =
        BaseCellOps.position (R := Square.Corner) (cells1.get ⟨0, by decide⟩)) ∧
      (((buildBoard idOrd cells1 E0 (14 / 100)).cells.getD 0 dRec).shape =
        BaseCellOps.shape (R := Square.Corner) (cells1.get ⟨0, by decide⟩)) ∧
      ((1 ∈ ((buildBoard idOrd cells1 E0 (14 / 100)).cells.getD 0 dRec).neighbors.map
          Prod.fst) ↔
        (cells1.get ⟨1, by decide⟩ ∈ BaseCellOps.neighbors (R := Square.Corner)
            (cells1.get ⟨0, by decide⟩) ∧
          ¬(E0 (cells1.get ⟨1, by decide⟩) (cells1.get ⟨0, by decide⟩) = true))) ∧
      (cells1.get ⟨1, by decide⟩ ∈ BaseCellOps.neighbors (R := Square.Corner)
          (cells1.get ⟨0, by decide⟩) →
        ¬(E0 (cells1.get ⟨1, by decide⟩) (cells1.get ⟨0, by decide⟩) = true) →
        ((buildBoard idOrd cells1 E0 (14 / 100)).cells.getD 0 dRec).neighbors.lookup 1 =
          some (PathK.simple
            (BaseCellOps.position (R := Square.Corner) (cells1.get ⟨0, by decide⟩))
            (BaseCellOps.position (R := Square.Corner) (cells1.get ⟨1, by decide⟩)))) ∧
      (∀ s e : Pt, (PathK.simple s e).kfs = [(0, s), (1, e)])) :=
  ⟨by decide, by decide, by decide,
   c1_board_synthesis_cell_records idOrd cells1 E0 (14 / 100) (by decide)
     (fun a b h => Bool.noConfusion h.1) 0 1 (by decide) (by decide)⟩

/-- C6 counterexample: the claim's adjacency rule ("edge sets intersect and
are not identical") disagrees with the code on surviving loops whose edge
sets are in a proper subset relation.  For the loops `L2` (a triangle and a
bowtie-style loop containing all three triangle edges), the edge sets
intersect and are not identical, yet the code's
`difference.count() == 0` test excludes loop 1 from loop 0's adjacency
map. -/
theorem c6_counterexample :
    ¬((1 ∈ ((mkCells L2 vq).getD 0 dRec).neighbors.map Prod.fst) ↔
      ((∃ e ∈ loopEdges (L2.getD 0 []), e ∈ loopEdges (L2.getD 1 [])) ∧
        ¬((∀ e ∈ loopEdges (L2.getD 0 []), e ∈ loopEdges (L2.getD 1 [])) ∧
          (∀ e ∈ loopEdges (L2.getD 1 []), e ∈ loopEdges (L2.getD 0 []))))) := by
  decide

/-- C6 (amended): in the cell list produced for one line-mesh component,
loop `j`'s index appears in loop `i`'s record's adjacency map iff the two
edge sets share at least one edge and `i`'s edge set is **not a subset** of
`j`'s (the code tests `edges.difference(&neighbor_edges).count() == 0`, which
also excludes proper subsets, not only identical sets); in particular no loop
is adjacent to itself, and each recorded adjacency maps to `Path::simple`
between the two loops' centroid positions. -/
theorem c6_import_adjacency_amended (loops : List (List ℕ)) (vpos : ℕ → ℚ × ℚ)
    (i j : ℕ) (hi : i < loops.length) (hj : j < loops.length) :
    ((j ∈ ((mkCells loops vpos).getD i dRec).neighbors.map Prod.fst) ↔
      ((∃ e ∈ loopEdges (loops.getD i []), e ∈ loopEdges (loops.getD j [])) ∧
        ¬(∀ e ∈ loopEdges (loops.getD i []), e ∈ loopEdges (loops.getD j [])))) ∧
    (i ∉ ((mkCells loops vpos).getD i dRec).neighbors.map Prod.fst) ∧
    (j ∈ ((mkCells loops vpos).getD i dRec).neighbors.map Prod.fst →
      ((mkCells loops vpos).getD i dRec).neighbors.lookup j =
        some (PathK.simple ((importCPos loops vpos).getD i (Pt.mk 0 0))
          ((importCPos loops vpos).getD j (Pt.mk 0 0)))) := by
  have hkeys : ((mkCells loops vpos).getD i dRec).neighbors.map Prod.fst =
      importNbrs loops i := by
    rw [mkCells_getD loops vpos hi]
    rw [List.map_map]
    induction importNbrs loops i with
    | nil => rfl
    | cons x xs ih => simp only [List.map_cons, ih, Function.comp]
  refine ⟨?_, ?_, ?_⟩
  · rw [hkeys]
    exact mem_importNbrs loops i j hj
  · rw [hkeys]
    intro hmem
    exact ((mem_importNbrs loops i i hi).mp hmem).2 (fun e he => he)
  · intro hmem
    rw [hkeys] at hmem
    rw [mkCells_getD loops vpos hi]
    exact c6_lookup loops vpos i j hmem

/-- Witness for C6 (amended) at two triangles sharing one edge. -/
theorem c6_witness :
    (0 : ℕ) < L3.length ∧ (1 : ℕ) < L3.length ∧
    (1 ∈ ((mkCells L3 vq).getD 0 dRec).neighbors.map Prod.fst) ∧
    (((1 ∈ ((mkCells L3 vq).getD 0 dRec).neighbors.map Prod.fst) ↔
      ((∃ e ∈ loopEdges (L3.getD 0 []), e ∈ loopEdges (L3.getD 1 [])) ∧
        ¬(∀ e ∈ loopEdges (L3.getD 0 []), e ∈ loopEdges (L3.getD 1 [])))) ∧
    (0 ∉ ((mkCells L3 vq).getD 0 dRec).neighbors.map Prod.fst) ∧
    (1 ∈ ((mkCells L3 vq).getD 0 dRec).neighbors.map Prod.fst →
      ((mkCells L3 vq).getD 0 dRec).neighbors.lookup 1 =
        some (PathK.simple ((importCPos L3 vq).getD 0 (Pt.mk 0 0))
          ((importCPos L3 vq).getD 1 (Pt.mk 0 0))))) :=
  ⟨by decide, by decide, by decide,
   c6_import_adjacency_amended L3 vq 0 1 (by decide) (by decide)⟩

/-- C7: `contains` returns true iff the number of the polygon's boundary
segments with a valid intersection with the `+X` ray from the point is odd,
where a valid intersection (via the perp-dot 2×2 solution) requires ray
parameter ≥ 0 and segment parameter within [0, 1]; ray-parallel (degenerate)
segments are excluded by precondition, as the contract states.  The two
boundary scenarios from the spec are included: the square cell's shape at the
origin contains `(0,0)` and does not contain `(100,100)`. -/
theorem c7_contains_parity :
    (∀ (p : Polygon) (pos : Pt),
      (∀ s ∈ segsOf p, Pt.perpDot (s.2 - s.1) xDir ≠ 0) →
      (p.containsPt pos = true ↔
        Odd ((segsOf p).countP (fun s => decide (specValidSeg s pos xDir))))) ∧
    (Square.Cell.shape ⟨0, 0⟩).containsPt ⟨⟨0, 0⟩, ⟨0, 0⟩⟩ = true ∧
    (Square.Cell.shape ⟨0, 0⟩).containsPt ⟨⟨100, 0⟩, ⟨100, 0⟩⟩ = false := by
  refine ⟨?_, ?_, ?_⟩
  · intro p pos hnd
    rw [Polygon.containsPt, decide_eq_true_eq]
    have hcong : ∀ s ∈ segsOf p,
        ((segIntersectRay s pos xDir).isSome = true ↔
          decide (specValidSeg s pos xDir) = true) := by
      intro s hs
      have hd := hnd s hs
      rw [segIntersectRay]
      simp only [if_neg hd, decide_eq_true_eq]
      by_cases hc :
          K.Nonneg ((Pt.perpDot (s.1 - pos) (s.2 - s.1)) / (Pt.perpDot xDir (s.2 - s.1))) ∧
          K.Nonneg ((Pt.perpDot (pos - s.1) xDir) / (Pt.perpDot (s.2 - s.1) xDir)) ∧
          K.Nonneg (K.ofRat 1 - (Pt.perpDot (pos - s.1) xDir) / (Pt.perpDot (s.2 - s.1) xDir))
      · rw [if_pos hc]
        simp only [Option.isSome_some]
        exact iff_of_true trivial ⟨hd, hc⟩
      · rw [if_neg hc]
        simp only [Option.isSome_none]
        exact iff_of_false (by simp) (fun h => hc h.2)
    have hcnt := List.countP_congr hcong
    rw [hcnt]
  · rw [Polygon.containsPt, sq_shape00]
    norm_num [segsOf, List.rotateLeft, segIntersectRay, pt_sub_mk, Pt.perpDot, Pt.mulS,
      K.mul_mk, K.sub_mk, K.zero_def, K.mk.injEq, K.div_def, K.inv, K.Nonneg, K.Pos,
      K.neg_mk, K.add_mk, List.countP, List.countP.go, K.ofRat, xDir, K.mk_eq_zero]
  · rw [Polygon.containsPt, sq_shape00]
    norm_num [segsOf, List.rotateLeft, segIntersectRay, pt_sub_mk, Pt.perpDot, Pt.mulS,
      K.mul_mk, K.sub_mk, K.zero_def, K.mk.injEq, K.div_def, K.inv, K.Nonneg, K.Pos,
      K.neg_mk, K.add_mk, List.countP, List.countP.go, K.ofRat, xDir, K.mk_eq_zero]

/-- Witness for C7's parity clause at a diamond (no boundary segment parallel
to the `+X` ray). -/
theorem c7_witness :
    (Polygon.mk [⟨⟨1, 0⟩, ⟨0, 0⟩⟩, ⟨⟨0, 0⟩, ⟨1, 0⟩⟩,
        ⟨⟨-1, 0⟩, ⟨0, 0⟩⟩, ⟨⟨0, 0⟩, ⟨-1, 0⟩⟩]).containsPt ⟨⟨0, 0⟩, ⟨0, 0⟩⟩ = true ↔
      Odd ((segsOf (Polygon.mk [⟨⟨1, 0⟩, ⟨0, 0⟩⟩, ⟨⟨0, 0⟩, ⟨1, 0⟩⟩,
        ⟨⟨-1, 0⟩, ⟨0, 0⟩⟩, ⟨⟨0, 0⟩, ⟨-1, 0⟩⟩])).countP
          (fun s => decide (specValidSeg s ⟨⟨0, 0⟩, ⟨0, 0⟩⟩ xDir))) :=
  c7_contains_parity.1 _ _ (by
    norm_num [segsOf, List.rotateLeft, pt_sub_mk, Pt.perpDot,
      K.mul_mk, K.sub_mk, K.mk_eq_zero, xDir, K.ofRat])

/-- C8: the directional-arrow triangle mesh of Board Synthesis never contains
two distinct tip vertices for the same (ordered) corner pair: the `TriVert`
vertex list is deduplicated by `TriVert` identity, so each `Tip(a, b)` occurs
at most once, for every synthesis input and every hash iteration order (a
faithful order is a permutation of the canonical insertion order). -/
theorem c8_no_duplicate_tips {C R : Type} [DecidableEq C] [DecidableEq R]
    [BaseCellOps C R] [BaseCornerOps R]
    (σ : HashOrd R) (hσt : ∀ l, (σ.t l).Perm l)
    (cells : List C) (E : EdgesF C) (a b : R) :
    (triVertList σ (classifyEdges (R := R) cells E).2).count (TriVert.tip a b) ≤ 1 := by
  unfold triVertList
  rw [(hσt _).count_eq]
  exact List.nodup_iff_count_le_one.mp (nodup_dedupF _) _

/-- Witness for C8 at a concrete square input with the identity iteration
order. -/
theorem c8_witness :
    (triVertList idOrd (classifyEdges (R := Square.Corner) cells1 E0).2).count
      (TriVert.tip ⟨0, 0⟩ ⟨1, 0⟩) ≤ 1 :=
  c8_no_duplicate_tips idOrd (fun l => List.Perm.refl l) cells1 E0 ⟨0, 0⟩ ⟨1, 0⟩

/-- C9: Board Synthesis is **not** a pure function of the input alone — the
output additionally depends on the hash-set iteration order, which for
`std::collections::HashSet` is seeded per instance and differs between runs.
On the same one-cell input, the identity order and the reversed corner order
(both orderings that a run may produce) yield Boards with identical cell
sequences but different wall-mesh buffers, so the Boards are not
structurally identical. -/
theorem c9_hash_order_dependence :
    (buildBoard idOrd cells0 E0 (14 / 100)).cells =
      (buildBoard revOrd cells0 E0 (14 / 100)).cells ∧
    buildBoard idOrd cells0 E0 (14 / 100) ≠ buildBoard revOrd cells0 E0 (14 / 100) :=
  ⟨rfl, fun h => absurd (congrArg linesOfBoard h) (by decide)⟩

/-- C10: starting from the empty registry, every sequence of
`add_one_way_edge` and `remove_cell` operations preserves the invariant that
for distinct cells `a`, `b` at most one of the directions `a→b`, `b→a` is
recorded (`add_one_way_edge` removes the reverse entry before inserting;
`remove_cell` removes every entry mentioning the cell), so `edge_dir` never
finds both its `AToB` and `BToA` conditions true for the same query. -/
theorem c10_registry_invariant {C : Type} [DecidableEq C]
    (ops : List (EdgeOp C)) (a b : C) (hab : a ≠ b) :
    ¬(applyOps ops a b = true ∧ applyOps ops b a = true) :=
  edgesInv_foldl ops emptyEdges edgesInv_empty a b hab

/-- Witness for C10: recording a direction and then its reverse leaves only
the reverse. -/
theorem c10_witness :
    ¬(applyOps [EdgeOp.addOneWay (Square.Cell.mk 0 0) ⟨1, 0⟩,
        EdgeOp.addOneWay ⟨1, 0⟩ ⟨0, 0⟩] ⟨0, 0⟩ ⟨1, 0⟩ = true ∧
      applyOps [EdgeOp.addOneWay (Square.Cell.mk 0 0) ⟨1, 0⟩,
        EdgeOp.addOneWay ⟨1, 0⟩ ⟨0, 0⟩] ⟨1, 0⟩ ⟨0, 0⟩ = true) :=
  c10_registry_invariant _ _ _ (by decide)
